import Mathlib

/-!
Verification of the conflict-marker parser and resolver of
`src/content.js` (class `MergeConflictHelper`).

Texts are modelled as Lean `String`s; the JavaScript `content.split("\n")`
/ `join("\n")` pair is modelled by `splitNl` / `joinNl` over the string's
character list.  The resolver `processConflicts`, the boundary scanner
`findConflictBoundaries`, the heuristic `hasConflicts` and the counter
`getConflictCount` are translated line for line from the source.  The
index-based loops of the source are rendered as structurally recursive
functions over an explicit fuel argument that starts at the number of
lines (resp. characters); the loop index strictly increases at every
iteration, so this fuel never runs out — this is proved by the bridge
lemmas `processConflictsAux_eq_procStruct`, `findConflictBoundaries_eq`
and `countOccurAux_eq_countOccur` below, which identify the fueled
functions with fuel-free structural recursions on list suffixes.
-/

/-- Characters removed by JavaScript `String.prototype.trim` (the ASCII
whitespace relevant to this code base). -/
def isWS (c : Char) : Bool := c = ' ' || c = '\t' || c = '\r' || c = '\n'

/-- Models `line.trim()` from the source: leading and trailing
whitespace removed. -/
def jsTrim (cs : List Char) : List Char :=
  ((cs.dropWhile isWS).reverse.dropWhile isWS).reverse

/-- The seven characters of the conflict start marker `"<<<<<<<"`. -/
def startMarker : List Char := ['<', '<', '<', '<', '<', '<', '<']

/-- The seven characters of the conflict separator marker `"======="`. -/
def sepMarker : List Char := ['=', '=', '=', '=', '=', '=', '=']

/-- The seven characters of the conflict end marker `">>>>>>>"`. -/
def endMarker : List Char := ['>', '>', '>', '>', '>', '>', '>']

/-- Models JavaScript `content.split("\n")` on the character list of the
content: splitting on every newline character, keeping empty pieces
(`"".split("\n")` is `[""]`). -/
def splitNl : List Char → List (List Char)
  | [] => [[]]
  | c :: rest =>
    if c = '\n' then [] :: splitNl rest
    else
      match splitNl rest with
      | [] => [[c]]
      | l :: ls => (c :: l) :: ls

/-- Models JavaScript `array.join("\n")`: the pieces interleaved with
single newline characters. -/
def joinNl : List (List Char) → List Char
  | [] => []
  | [l] => l
  | l :: l' :: ls => l ++ '\n' :: joinNl (l' :: ls)

/-- Models the line test `line.startsWith("<<<<<<<")` used by
`processConflicts` (no trimming). -/
def isStartLine (l : List Char) : Bool := startMarker.isPrefixOf l

/-- Models the separator test `lines[j].trim() === "======="` used by
`findConflictBoundaries`. -/
def isSepLine (l : List Char) : Bool := jsTrim l = sepMarker

/-- Models the end-marker test `lines[j].trim().startsWith(">>>>>>>")`
used by `findConflictBoundaries`. -/
def isEndLine (l : List Char) : Bool := endMarker.isPrefixOf (jsTrim l)

/-- The `for (let j = startIndex + 1; j < lines.length; j++)` loop body of
`findConflictBoundaries` (src/content.js:569-584): `middleIndex` is
overwritten by every line trimming to `"======="`; the loop breaks at the
first line whose trimmed value starts with `">>>>>>>"`, which becomes
`endIndex`.  The JavaScript `-1` sentinels are rendered as `none`.  The
fuel argument bounds the number of remaining iterations; it is started at
`lines.length`, which is never exhausted since `j` strictly increases. -/
def findConflictBoundariesAux (lines : List (List Char)) :
    Nat → Nat → Option Nat → Option Nat × Option Nat
  | 0, _, middleIndex => (middleIndex, none)
  | fuel + 1, j, middleIndex =>
    if h : j < lines.length then
      let line := jsTrim lines[j]
      if line = sepMarker then
        findConflictBoundariesAux lines fuel (j + 1) (some j)
      else if endMarker.isPrefixOf line then
        (middleIndex, some j)
      else
        findConflictBoundariesAux lines fuel (j + 1) middleIndex
    else (middleIndex, none)

/-- Models `findConflictBoundaries(lines, startIndex)` from
src/content.js:569-584, returning `(middleIndex, endIndex)` with `none`
for the JavaScript `-1`. -/
def findConflictBoundaries (lines : List (List Char)) (startIndex : Nat) :
    Option Nat × Option Nat :=
  findConflictBoundariesAux lines lines.length (startIndex + 1) none

/-- Models the inner copying loops of `processConflicts`
(`for (let k = a; k < b; k++) resolvedLines.push(lines[k])`); in every
use below `b` is an in-range index, so the loop pushes exactly the lines
with indices in `[a, b)`. -/
def sliceLines (lines : List (List Char)) (a b : Nat) : List (List Char) :=
  (lines.drop a).take (b - a)

/-- The `while (i < lines.length)` loop of `processConflicts`
(src/content.js:527-567): a line starting with `"<<<<<<<"` whose
boundaries are both found is replaced by the side(s) selected by
`choice` (`"current"`, `"incoming"`, `"both"`, anything else keeps
nothing) and the scan resumes after the end marker; any other line — in
particular a start-marker line with a missing boundary — is passed
through and the scan advances by one.  The fuel argument is started at
`lines.length` and is never exhausted since `i` strictly increases. -/
def processConflictsAux (lines : List (List Char)) (choice : String) :
    Nat → Nat → List (List Char)
  | 0, _ => []
  | fuel + 1, i =>
    if h : i < lines.length then
      let line := lines[i]
      if startMarker.isPrefixOf line then
        match findConflictBoundaries lines i with
        | (some middleIndex, some endIndex) =>
          (if choice = "current" then
              sliceLines lines (i + 1) middleIndex
            else if choice = "incoming" then
              sliceLines lines (middleIndex + 1) endIndex
            else if choice = "both" then
              sliceLines lines (i + 1) middleIndex ++
                sliceLines lines (middleIndex + 1) endIndex
            else []) ++ processConflictsAux lines choice fuel (endIndex + 1)
        | (_, _) => line :: processConflictsAux lines choice fuel (i + 1)
      else
        line :: processConflictsAux lines choice fuel (i + 1)
    else []

/-- Models `processConflicts(content, choice)` from src/content.js:527-567
(the spec's `resolve(text, policy)`): split on newlines, scan, join with
newlines. -/
def processConflicts (content : String) (choice : String) : String :=
  let lines := splitNl content.data
  String.mk (joinNl (processConflictsAux lines choice lines.length 0))

/-- Counts the non-overlapping occurrences of `"<<<<<<<"` in a character
list, scanning left to right, as the JavaScript global regex match
`content.match(/<<<<<<</g)` does; after a match the scan resumes past
the matched seven characters.  Fueled by the length of the list. -/
def countOccurAux : Nat → List Char → Nat
  | 0, _ => 0
  | _ + 1, [] => 0
  | fuel + 1, c :: rest =>
    if startMarker.isPrefixOf (c :: rest) then
      countOccurAux fuel (rest.drop 6) + 1
    else
      countOccurAux fuel rest

/-- Models `getConflictCount` from src/content.js:619-623:
`content.match(/<<<<<<</g)` occurrence count (`0` when `null`).  The DOM
read `this.getContent()` of the source is abstracted as the `content`
parameter, as the spec prescribes. -/
def getConflictCount (content : String) : Nat :=
  countOccurAux content.data.length content.data

/-- Models JavaScript `content.includes(pat)`: substring containment. -/
def hasSubstr (pat : List Char) : List Char → Bool
  | [] => pat.isEmpty
  | c :: rest => pat.isPrefixOf (c :: rest) || hasSubstr pat rest

/-- Models `hasConflicts` from src/content.js:610-617: the three marker
substrings each contained somewhere in the text, checked independently.
The DOM read `this.getContent()` is abstracted as the `content`
parameter, as the spec prescribes. -/
def hasConflicts (content : String) : Bool :=
  hasSubstr startMarker content.data &&
    hasSubstr sepMarker content.data &&
      hasSubstr endMarker content.data

/-- Fuel-free rendering of the `findConflictBoundaries` scan on the list
of lines after the start marker, returning indices relative to that
suffix.  Identified with the fueled translation by
`findConflictBoundariesAux_eq`. -/
def fbStruct : List (List Char) → Option Nat × Option Nat
  | [] => (none, none)
  | l :: rest =>
    if jsTrim l = sepMarker then
      match fbStruct rest with
      | (some m, eo) => (some (m + 1), eo.map (· + 1))
      | (none, some e) => (some 0, some (e + 1))
      | (none, none) => (some 0, none)
    else if endMarker.isPrefixOf (jsTrim l) then
      (none, some 0)
    else
      match fbStruct rest with
      | (mo, eo) => (mo.map (· + 1), eo.map (· + 1))

/-- Fuel-free rendering of the `processConflicts` scan on the suffix of
lines not yet consumed.  Identified with the fueled translation by
`processConflictsAux_eq_procStruct`. -/
def procStruct (choice : String) : List (List Char) → List (List Char)
  | [] => []
  | line :: rest =>
    if isStartLine line then
      match fbStruct rest with
      | (some m, some e) =>
        (if choice = "current" then rest.take m
          else if choice = "incoming" then (rest.drop (m + 1)).take (e - m - 1)
          else if choice = "both" then
            rest.take m ++ (rest.drop (m + 1)).take (e - m - 1)
          else []) ++ procStruct choice (rest.drop (e + 1))
      | (_, _) => line :: procStruct choice rest
    else line :: procStruct choice rest
  termination_by l => l.length
  decreasing_by
    all_goals simp [ List.length_drop]
    all_goals omega

/-- Fuel-free rendering of the left-to-right non-overlapping occurrence
count of `"<<<<<<<"`.  Identified with the fueled translation by
`countOccurAux_eq_countOccur`. -/
def countOccur : List Char → Nat
  | [] => 0
  | c :: rest =>
    if startMarker.isPrefixOf (c :: rest) then countOccur (rest.drop 6) + 1
    else countOccur rest
  termination_by l => l.length
  decreasing_by
    all_goals simp [ List.length_drop]
    all_goals omega

/-- Line sequences in which every line either satisfies the parameter
predicate (a "plain" line, passed through or kept as region content) or
belongs to a well-shaped conflict region: start marker, content lines,
separator, content lines, end marker. -/
inductive CleanLinesP (P : List Char → Prop) : List (List Char) → Prop
  | nil : CleanLinesP P []
  | plain {l : List Char} {rest : List (List Char)} :
      P l → CleanLinesP P rest → CleanLinesP P (l :: rest)
  | region {s m e : List Char} {a b rest : List (List Char)} :
      isStartLine s = true → (∀ l ∈ a, P l) → isSepLine m = true →
      (∀ l ∈ b, P l) → isEndLine e = true → CleanLinesP P rest →
      CleanLinesP P (s :: (a ++ (m :: (b ++ e :: rest))))

/-- With enough fuel, the fueled boundary scan computes the structural
scan of the corresponding suffix, with indices shifted by the start
position and the accumulated `middleIndex` returned when the suffix
contributes no separator. -/
theorem findConflictBoundariesAux_eq (lines : List (List Char)) :
    ∀ fuel j m0, lines.length - j ≤ fuel →
    findConflictBoundariesAux lines fuel j m0 =
      (Option.elim (fbStruct (lines.drop j)).1 m0 (fun m => some (j + m)),
        Option.map (fun e => j + e) (fbStruct (lines.drop j)).2) := by
  intro fuel
  induction fuel with
  | zero =>
    intro j m0 hj
    have hdrop : lines.drop j = [] := List.drop_eq_nil_of_le (by omega)
    simp [findConflictBoundariesAux, hdrop, fbStruct]
  | succ fuel ih =>
    intro j m0 hj
    by_cases h : j < lines.length
    · have hdrop : lines.drop j = lines[j] :: lines.drop (j + 1) :=
        (List.getElem_cons_drop lines j h).symm
      have hfuel : lines.length - (j + 1) ≤ fuel := by omega
      rw [findConflictBoundariesAux, dif_pos h, hdrop]
      rcases hfb : fbStruct (lines.drop (j + 1)) with ⟨mo, eo⟩
      by_cases hsep : jsTrim lines[j] = sepMarker
      · rw [if_pos hsep, ih (j + 1) (some j) hfuel, hfb]
        simp only [fbStruct, hsep, if_pos, hfb]
        rcases mo with _ | m <;> rcases eo with _ | e <;>
          simp [Option.elim, Option.map] <;> omega
      · rw [if_neg hsep]
        by_cases hend : endMarker.isPrefixOf (jsTrim lines[j])
        · rw [if_pos hend]
          simp [fbStruct, hsep, hend]
        · rw [if_neg hend, ih (j + 1) m0 hfuel, hfb]
          simp only [fbStruct, hsep, hend, if_neg, if_false, hfb]
          rcases mo with _ | m <;> rcases eo with _ | e <;>
            simp [Option.elim, Option.map] <;> omega
    · have hdrop : lines.drop j = [] := List.drop_eq_nil_of_le (by omega)
      rw [findConflictBoundariesAux, dif_neg h]
      simp [hdrop, fbStruct]

/-- The translation of `findConflictBoundaries(lines, startIndex)` in
terms of the structural scan of the lines after the start index. -/
theorem findConflictBoundaries_eq (lines : List (List Char)) (s : Nat) :
    findConflictBoundaries lines s =
      (Option.map (fun m => s + 1 + m) (fbStruct (lines.drop (s + 1))).1,
        Option.map (fun e => s + 1 + e) (fbStruct (lines.drop (s + 1))).2) := by
  rw [findConflictBoundaries, findConflictBoundariesAux_eq lines lines.length (s + 1) none (by omega)]
  rcases fbStruct (lines.drop (s + 1)) with ⟨mo, eo⟩
  rcases mo with _ | m <;> simp [Option.elim]

/-- With enough fuel, the fueled resolver scan starting at position `i`
computes the structural scan of the suffix `lines.drop i`. -/
theorem processConflictsAux_eq_procStruct (lines : List (List Char)) (choice : String) :
    ∀ fuel i, lines.length - i ≤ fuel →
    processConflictsAux lines choice fuel i = procStruct choice (lines.drop i) := by
  intro fuel
  induction fuel with
  | zero =>
    intro i hi
    have hdrop : lines.drop i = [] := List.drop_eq_nil_of_le (by omega)
    simp [processConflictsAux, hdrop, procStruct]
  | succ fuel ih =>
    intro i hi
    by_cases h : i < lines.length
    · have hdrop : lines.drop i = lines[i] :: lines.drop (i + 1) :=
        (List.getElem_cons_drop lines i h).symm
      have hfuel1 : lines.length - (i + 1) ≤ fuel := by omega
      rcases hfb : fbStruct (lines.drop (i + 1)) with ⟨mo, eo⟩
      have hfbeq : findConflictBoundaries lines i =
          (Option.map (fun m => i + 1 + m) mo, Option.map (fun e => i + 1 + e) eo) := by
        rw [findConflictBoundaries_eq, hfb]
      simp only [processConflictsAux, dif_pos h, hfbeq]
      rw [hdrop]
      simp only [procStruct, isStartLine]
      by_cases hstart : startMarker.isPrefixOf lines[i]
      · rw [if_pos hstart, if_pos hstart, hfb]
        rcases mo with _ | m <;> rcases eo with _ | e
        · exact congrArg (List.cons lines[i]) (ih (i + 1) hfuel1)
        · exact congrArg (List.cons lines[i]) (ih (i + 1) hfuel1)
        · exact congrArg (List.cons lines[i]) (ih (i + 1) hfuel1)
        · have h1 : sliceLines lines (i + 1) (i + 1 + m) = (lines.drop (i + 1)).take m := by
            have e1 : i + 1 + m - (i + 1) = m := by omega
            simp only [sliceLines]
            rw [e1]
          have h2 : sliceLines lines (i + 1 + m + 1) (i + 1 + e) =
              ((lines.drop (i + 1)).drop (m + 1)).take (e - m - 1) := by
            have e1 : i + 1 + e - (i + 1 + m + 1) = e - m - 1 := by omega
            have e2 : i + 1 + (m + 1) = i + 1 + m + 1 := by omega
            simp only [sliceLines]
            rw [List.drop_drop, e1, e2]
          have h3 : processConflictsAux lines choice fuel (i + 1 + e + 1) =
              procStruct choice ((lines.drop (i + 1)).drop (e + 1)) := by
            rw [ih (i + 1 + e + 1) (by omega), List.drop_drop]
            have harith : i + 1 + (e + 1) = i + 1 + e + 1 := by omega
            rw [harith]
          have hk : (if choice = "current" then sliceLines lines (i + 1) (i + 1 + m)
              else if choice = "incoming" then sliceLines lines (i + 1 + m + 1) (i + 1 + e)
              else if choice = "both" then
                sliceLines lines (i + 1) (i + 1 + m) ++
                  sliceLines lines (i + 1 + m + 1) (i + 1 + e)
              else []) =
              (if choice = "current" then (lines.drop (i + 1)).take m
              else if choice = "incoming" then
                ((lines.drop (i + 1)).drop (m + 1)).take (e - m - 1)
              else if choice = "both" then
                (lines.drop (i + 1)).take m ++
                  ((lines.drop (i + 1)).drop (m + 1)).take (e - m - 1)
              else []) := by
            rw [h1, h2]
          exact congrArg₂ (· ++ ·) hk h3
      · rw [if_neg hstart, if_neg hstart]
        exact congrArg (List.cons lines[i]) (ih (i + 1) hfuel1)
    · have hdrop : lines.drop i = [] := List.drop_eq_nil_of_le (by omega)
      rw [processConflictsAux, dif_neg h]
      simp [hdrop, procStruct]

/-- Top-level form of the bridge: splitting the content, running the
structural scan and joining gives `processConflicts`. -/
theorem processConflicts_eq (content choice : String) :
    processConflicts content choice =
      String.mk (joinNl (procStruct choice (splitNl content.data))) := by
  rw [processConflicts]
  rw [processConflictsAux_eq_procStruct _ choice _ 0 (by omega)]
  rfl

/-- With enough fuel the fueled occurrence counter agrees with the
structural one. -/
theorem countOccurAux_eq_countOccur :
    ∀ fuel cs, cs.length ≤ fuel → countOccurAux fuel cs = countOccur cs := by
  intro fuel
  induction fuel with
  | zero =>
    intro cs h
    have hnil : cs = [] := List.eq_nil_of_length_eq_zero (by omega)
    subst hnil
    simp [countOccurAux, countOccur]
  | succ fuel ih =>
    intro cs h
    rcases cs with _ | ⟨c, rest⟩
    · simp [countOccurAux, countOccur]
    · rw [countOccurAux, countOccur]
      by_cases hpre : startMarker.isPrefixOf (c :: rest)
      · rw [if_pos hpre, if_pos hpre,
          ih (rest.drop 6) (by simp only [ List.length_drop]; simp at h; omega)]
      · rw [if_neg hpre, if_neg hpre, ih rest (by simp at h; omega)]

/-- The conflict counter is the structural occurrence count of
`"<<<<<<<"` in the content. -/
theorem getConflictCount_eq (content : String) :
    getConflictCount content = countOccur content.data :=
  countOccurAux_eq_countOccur _ _ (le_refl _)

/-- Splitting on newlines always yields at least one piece. -/
theorem splitNl_ne_nil (cs : List Char) : splitNl cs ≠ [] := by
  induction cs with
  | nil => simp [splitNl]
  | cons c rest ih =>
    by_cases hc : c = '\n'
    · simp [splitNl, hc]
    · rcases hsp : splitNl rest with _ | ⟨l, ls⟩
      · exact absurd hsp ih
      · simp [splitNl, hc, hsp]

/-- Joining the pieces of a split restores the original character list
(the split/join pair of the source loses nothing). -/
theorem joinNl_splitNl (cs : List Char) : joinNl (splitNl cs) = cs := by
  induction cs with
  | nil => rfl
  | cons c rest ih =>
    by_cases hc : c = '\n'
    · subst hc
      rcases hsp : splitNl rest with _ | ⟨l, ls⟩
      · exact absurd hsp (splitNl_ne_nil rest)
      · have hstep : splitNl ('\n' :: rest) = [] :: splitNl rest := by simp [splitNl]
        rw [hstep, hsp, joinNl]
        rw [hsp] at ih
        simp [ih]
    · rcases hsp : splitNl rest with _ | ⟨l, ls⟩
      · exact absurd hsp (splitNl_ne_nil rest)
      · have hstep : splitNl (c :: rest) = (c :: l) :: ls := by simp [splitNl, hc, hsp]
        rw [hstep]
        rw [hsp] at ih
        rcases ls with _ | ⟨l', ls'⟩
        · simp only [joinNl] at ih ⊢
          rw [ih]
        · rw [joinNl]
          rw [joinNl] at ih
          simp [← ih]

/-- A newline-free character list splits into the single piece itself. -/
theorem splitNl_eq_single {cs : List Char} (h : '\n' ∉ cs) : splitNl cs = [cs] := by
  induction cs with
  | nil => rfl
  | cons c rest ih =>
    have hc : c ≠ '\n' := fun e => h (e ▸ List.mem_cons_self c rest)
    have hrest : '\n' ∉ rest := fun hm => h (List.mem_cons_of_mem _ hm)
    simp [splitNl, hc, ih hrest]

/-- Splitting a list that starts with a newline-free piece followed by a
newline peels off that piece. -/
theorem splitNl_append {a b : List Char} (h : '\n' ∉ a) :
    splitNl (a ++ '\n' :: b) = a :: splitNl b := by
  induction a with
  | nil => simp [splitNl]
  | cons c a' ih =>
    have hc : c ≠ '\n' := fun e => h (e ▸ List.mem_cons_self c a')
    have ha' : '\n' ∉ a' := fun hm => h (List.mem_cons_of_mem _ hm)
    simp [splitNl, hc, ih ha']

/-- Splitting the join of a nonempty list of newline-free pieces restores
the list of pieces. -/
theorem splitNl_joinNl {L : List (List Char)} (hnl : ∀ l ∈ L, '\n' ∉ l)
    (hne : L ≠ []) : splitNl (joinNl L) = L := by
  induction L with
  | nil => exact absurd rfl hne
  | cons l ls ih =>
    rcases ls with _ | ⟨l', ls'⟩
    · simp only [joinNl]
      exact splitNl_eq_single (hnl l (List.mem_cons_self _ _))
    · rw [joinNl, splitNl_append (hnl l (List.mem_cons_self _ _))]
      rw [ih (fun x hx => hnl x (List.mem_cons_of_mem _ hx)) (by simp)]

/-- Every piece of a split is newline-free. -/
theorem no_newline_of_mem_splitNl : ∀ {cs l : List Char}, l ∈ splitNl cs → '\n' ∉ l := by
  intro cs
  induction cs with
  | nil =>
    intro l hl
    simp [splitNl] at hl
    subst hl
    simp
  | cons c rest ih =>
    intro l hl
    by_cases hc : c = '\n'
    · subst hc
      simp [splitNl] at hl
      rcases hl with rfl | hl
      · simp
      · exact ih hl
    · rcases hsp : splitNl rest with _ | ⟨p, ps⟩
      · exact absurd hsp (splitNl_ne_nil rest)
      · simp [splitNl, hc, hsp] at hl
        rcases hl with rfl | hl
        · intro hmem
          rcases List.mem_cons.mp hmem with h1 | h1
          · exact hc h1.symm
          · exact ih (hsp ▸ List.mem_cons_self p ps) h1
        · exact ih (hsp ▸ List.mem_cons_of_mem p hl)

/-- A separator line is never an end-marker line: its trimmed value is
`"======="`, which does not start with `">>>>>>>"`. -/
theorem not_isEndLine_of_isSepLine {l : List Char} (h : isSepLine l = true) :
    ¬ isEndLine l = true := by
  have h' : jsTrim l = sepMarker := by simpa [isSepLine] using h
  simp [isEndLine, h', sepMarker, endMarker, List.isPrefixOf]

/-- Scanning past a line that is neither separator nor end marker shifts
the boundary result by one. -/
theorem fbStruct_cons_clean {l : List Char} {L : List (List Char)}
    (h1 : ¬ isSepLine l = true) (h2 : ¬ isEndLine l = true) :
    fbStruct (l :: L) =
      ((fbStruct L).1.map (· + 1), (fbStruct L).2.map (· + 1)) := by
  have h1' : ¬ jsTrim l = sepMarker := by simpa [isSepLine] using h1
  have h2' : ¬ endMarker.isPrefixOf (jsTrim l) = true := by simpa [isEndLine] using h2
  rw [fbStruct, if_neg h1', if_neg h2']

/-- The scan stops at an end-marker line. -/
theorem fbStruct_cons_end {l : List Char} {L : List (List Char)}
    (h : isEndLine l = true) : fbStruct (l :: L) = (none, some 0) := by
  have hne : ¬ jsTrim l = sepMarker := by
    intro he
    exact absurd h (by simp [isEndLine, he, sepMarker, endMarker, List.isPrefixOf])
  have h' : endMarker.isPrefixOf (jsTrim l) = true := by simpa [isEndLine] using h
  rw [fbStruct, if_neg hne, if_pos h']

/-- The scan passing a separator line records it, keeping any later
separator found before the end marker. -/
theorem fbStruct_cons_sep {l : List Char} {L : List (List Char)}
    (h : isSepLine l = true) :
    fbStruct (l :: L) =
      (some (Option.elim (fbStruct L).1 0 (· + 1)),
        Option.map (· + 1) (fbStruct L).2) := by
  have h' : jsTrim l = sepMarker := by simpa [isSepLine] using h
  rw [fbStruct, if_pos h']
  rcases hfb : fbStruct L with ⟨mo, eo⟩
  rcases mo with _ | m <;> rcases eo with _ | e <;> rfl

/-- Scanning past a block of lines containing neither separators nor end
markers shifts the boundary result by the block length. -/
theorem fbStruct_append_clean {b L : List (List Char)}
    (hb : ∀ l ∈ b, ¬ isSepLine l = true ∧ ¬ isEndLine l = true) :
    fbStruct (b ++ L) =
      ((fbStruct L).1.map (· + b.length), (fbStruct L).2.map (· + b.length)) := by
  induction b with
  | nil =>
    rcases hfb : fbStruct L with ⟨mo, eo⟩
    rcases mo with _ | m <;> rcases eo with _ | e <;> simp [hfb]
  | cons x b' ih =>
    rw [List.cons_append,
      fbStruct_cons_clean (hb x (List.mem_cons_self _ _)).1 (hb x (List.mem_cons_self _ _)).2,
      ih (fun l hl => hb l (List.mem_cons_of_mem _ hl))]
    rcases hfb : fbStruct L with ⟨mo, eo⟩
    rcases mo with _ | m <;> rcases eo with _ | e <;> simp <;> omega

/-- On a well-shaped region tail — clean current side, separator, clean
incoming side, end marker — the boundary scan finds exactly the separator
and the end marker. -/
theorem fbStruct_region {a b rest : List (List Char)} {m e : List Char}
    (ha : ∀ l ∈ a, ¬ isSepLine l = true ∧ ¬ isEndLine l = true)
    (hm : isSepLine m = true)
    (hb : ∀ l ∈ b, ¬ isSepLine l = true ∧ ¬ isEndLine l = true)
    (he : isEndLine e = true) :
    fbStruct (a ++ (m :: (b ++ e :: rest))) =
      (some a.length, some (a.length + 1 + b.length)) := by
  have h1 : fbStruct (e :: rest) = (none, some 0) := fbStruct_cons_end he
  have h2 : fbStruct (b ++ e :: rest) = (none, some b.length) := by
    rw [fbStruct_append_clean hb, h1]
    simp
  have h3 : fbStruct (m :: (b ++ e :: rest)) = (some 0, some (b.length + 1)) := by
    rw [fbStruct_cons_sep hm, h2]
    simp [Option.elim]
  rw [fbStruct_append_clean ha, h3]
  simp
  omega

/-- Unfolding of the structural resolver at a start-marker line whose
boundaries are both found. -/
theorem procStruct_cons_found {line : List Char} {tail : List (List Char)}
    {m e : Nat} (choice : String)
    (hs : isStartLine line = true) (hfb : fbStruct tail = (some m, some e)) :
    procStruct choice (line :: tail) =
      (if choice = "current" then tail.take m
        else if choice = "incoming" then (tail.drop (m + 1)).take (e - m - 1)
        else if choice = "both" then
          tail.take m ++ (tail.drop (m + 1)).take (e - m - 1)
        else []) ++ procStruct choice (tail.drop (e + 1)) := by
  rw [procStruct, if_pos hs, hfb]

/-- On a well-shaped region the resolver emits the side(s) selected by
the policy and continues after the end marker. -/
theorem procStruct_region (choice : String) {a b rest : List (List Char)}
    {s m e : List Char}
    (hs : isStartLine s = true)
    (ha : ∀ l ∈ a, ¬ isSepLine l = true ∧ ¬ isEndLine l = true)
    (hm : isSepLine m = true)
    (hb : ∀ l ∈ b, ¬ isSepLine l = true ∧ ¬ isEndLine l = true)
    (he : isEndLine e = true) :
    procStruct choice (s :: (a ++ (m :: (b ++ e :: rest)))) =
      (if choice = "current" then a
        else if choice = "incoming" then b
        else if choice = "both" then a ++ b
        else []) ++ procStruct choice rest := by
  rw [procStruct_cons_found choice hs (fbStruct_region ha hm hb he)]
  have htake : (a ++ (m :: (b ++ e :: rest))).take a.length = a := List.take_left a _
  have hdrop1 : (a ++ (m :: (b ++ e :: rest))).drop (a.length + 1) = b ++ e :: rest := by
    rw [ List.append_cons a m (b ++ e :: rest)]
    have hlen : (a ++ [m]).length = a.length + 1 := by simp
    rw [← hlen, List.drop_left]
  have ham : a.length + 1 + b.length - a.length - 1 = b.length := by omega
  have htakeb : (b ++ e :: rest).take b.length = b := List.take_left b _
  have hdrop3 : (a ++ (m :: (b ++ e :: rest))).drop (a.length + 1 + b.length + 1) = rest := by
    have hre : a ++ (m :: (b ++ e :: rest)) = (a ++ [m] ++ b ++ [e]) ++ rest := by simp
    have hlen : (a ++ [m] ++ b ++ [e]).length = a.length + 1 + b.length + 1 := by
      simp
      omega
    rw [hre, ← hlen, List.drop_left]
  rw [htake, hdrop1, ham, htakeb, hdrop3]

/-- On lines containing no start marker the resolver is the identity. -/
theorem procStruct_id {choice : String} {L : List (List Char)}
    (h : ∀ l ∈ L, ¬ isStartLine l = true) : procStruct choice L = L := by
  induction L with
  | nil => simp [procStruct]
  | cons l rest ih =>
    rw [procStruct, if_neg (h l (List.mem_cons_self _ _)),
      ih (fun x hx => h x (List.mem_cons_of_mem _ hx))]

/-- Every line emitted by the structural resolver scan is one of the
input lines (passthrough lines and copied side lines alike). -/
theorem mem_procStruct (choice : String) :
    ∀ L, ∀ l ∈ procStruct choice L, l ∈ L
  | [] => by simp [procStruct]
  | line :: rest => by
    intro l hl
    rw [procStruct] at hl
    by_cases hstart : isStartLine line
    · rw [if_pos hstart] at hl
      rcases hfb : fbStruct rest with ⟨mo, eo⟩
      rw [hfb] at hl
      rcases mo with _ | m <;> rcases eo with _ | e
      · rcases List.mem_cons.mp hl with rfl | hl
        · exact List.mem_cons_self _ _
        · exact List.mem_cons_of_mem _ (mem_procStruct choice rest l hl)
      · rcases List.mem_cons.mp hl with rfl | hl
        · exact List.mem_cons_self _ _
        · exact List.mem_cons_of_mem _ (mem_procStruct choice rest l hl)
      · rcases List.mem_cons.mp hl with rfl | hl
        · exact List.mem_cons_self _ _
        · exact List.mem_cons_of_mem _ (mem_procStruct choice rest l hl)
      · rcases List.mem_append.mp hl with hk | hk
        · refine List.mem_cons_of_mem _ ?_
          rcases Decidable.em (choice = "current") with hcur | hcur
          · rw [if_pos hcur] at hk
            exact List.take_subset _ _ hk
          · rw [if_neg hcur] at hk
            rcases Decidable.em (choice = "incoming") with hinc | hinc
            · rw [if_pos hinc] at hk
              exact List.drop_subset _ _ (List.take_subset _ _ hk)
            · rw [if_neg hinc] at hk
              rcases Decidable.em (choice = "both") with hboth | hboth
              · rw [if_pos hboth] at hk
                rcases List.mem_append.mp hk with hk' | hk'
                · exact List.take_subset _ _ hk'
                · exact List.drop_subset _ _ (List.take_subset _ _ hk')
              · rw [if_neg hboth] at hk
                simp at hk
        · exact List.mem_cons_of_mem _
            (List.drop_subset _ _ (mem_procStruct choice (rest.drop (e + 1)) l hk))
    · rw [if_neg hstart] at hl
      rcases List.mem_cons.mp hl with rfl | hl
      · exact List.mem_cons_self _ _
      · exact List.mem_cons_of_mem _ (mem_procStruct choice rest l hl)
  termination_by L => L.length
  decreasing_by
    all_goals simp [ List.length_drop]
    all_goals omega

/-- When the parameter predicate excludes all three marker shapes, the
structural resolver maps clean line sequences to sequences of lines all
satisfying the predicate — in particular the markers and only the
markers are consumed. -/
theorem procStruct_clean {P : List Char → Prop}
    (hP : ∀ l, P l →
      ¬ isStartLine l = true ∧ ¬ isSepLine l = true ∧ ¬ isEndLine l = true)
    (choice : String) {L : List (List Char)} (hL : CleanLinesP P L) :
    ∀ l ∈ procStruct choice L, P l := by
  induction hL with
  | nil => simp [procStruct]
  | plain hp hrest ih =>
    intro x hx
    rw [procStruct, if_neg (hP _ hp).1] at hx
    rcases List.mem_cons.mp hx with rfl | hx
    · exact hp
    · exact ih x hx
  | region hs ha hm hb he hrest ih =>
    intro x hx
    rw [procStruct_region choice hs
      (fun l hl => ⟨(hP l (ha l hl)).2.1, (hP l (ha l hl)).2.2⟩) hm
      (fun l hl => ⟨(hP l (hb l hl)).2.1, (hP l (hb l hl)).2.2⟩) he] at hx
    rcases List.mem_append.mp hx with hk | hk
    · by_cases h1 : choice = "current"
      · rw [if_pos h1] at hk
        exact ha x hk
      · rw [if_neg h1] at hk
        by_cases h2 : choice = "incoming"
        · rw [if_pos h2] at hk
          exact hb x hk
        · rw [if_neg h2] at hk
          by_cases h3 : choice = "both"
          · rw [if_pos h3] at hk
            rcases List.mem_append.mp hk with hk' | hk'
            · exact ha x hk'
            · exact hb x hk'
          · rw [if_neg h3] at hk
            simp at hk
    · exact ih x hk

/-- The start-marker pattern never matches at a newline character. -/
theorem not_start_at_newline (y : List Char) :
    ¬ startMarker.isPrefixOf ('\n' :: y) = true := by
  simp [startMarker, List.isPrefixOf]

/-- Occurrences of `"<<<<<<<"` never span a newline: counting over a text
assembled from two pieces around a newline is the sum of the two
counts. -/
theorem countOccur_append_nl :
    ∀ (x y : List Char), countOccur (x ++ '\n' :: y) = countOccur x + countOccur y
  | [], y => by
    have h1 : countOccur ('\n' :: y) = countOccur y := by
      rw [countOccur, if_neg (not_start_at_newline y)]
    rw [List.nil_append, h1]
    simp [countOccur]
  | c :: x', y => by
    by_cases hpre : startMarker.isPrefixOf ((c :: x') ++ '\n' :: y) = true
    · have hpre' : startMarker.isPrefixOf (c :: (x' ++ '\n' :: y)) = true := by
        rwa [List.cons_append] at hpre
      have hpre7 : 7 ≤ (c :: x').length := by
        by_contra hlt
        push_neg at hlt
        have hp : startMarker <+: ((c :: x') ++ '\n' :: y) :=
          List.isPrefixOf_iff_prefix.mp hpre
        have hlen_all : (c :: x').length < ((c :: x') ++ '\n' :: y).length := by simp
        have hlt7 : (c :: x').length < startMarker.length := by
          simpa [startMarker] using hlt
        have h1 : ((c :: x') ++ '\n' :: y)[(c :: x').length] = '\n' := by
          rw [ List.getElem_append_right (le_refl _)]
          simp
        have h2 : startMarker[(c :: x').length] =
            ((c :: x') ++ '\n' :: y)[(c :: x').length] :=
          List.IsPrefix.getElem hp hlt7
        have hmem : '\n' ∈ startMarker := by
          rw [← h1, ← h2]
          exact List.getElem_mem hlt7
        exact absurd hmem (by decide)
      have hpx : startMarker.isPrefixOf (c :: x') = true := by
        rw [ List.isPrefixOf_iff_prefix] at hpre ⊢
        exact List.prefix_of_prefix_length_le hpre (List.prefix_append _ _)
          (by simpa [startMarker] using hpre7)
      have hdr : (x' ++ '\n' :: y).drop 6 = x'.drop 6 ++ '\n' :: y := by
        rw [ List.drop_append_eq_append_drop]
        have h6 : 6 - x'.length = 0 := by
          simp at hpre7
          omega
        rw [h6]
        simp
      have hcx : countOccur (c :: x') = countOccur (x'.drop 6) + 1 := by
        rw [countOccur, if_pos hpx]
      calc countOccur ((c :: x') ++ '\n' :: y)
          = countOccur ((x' ++ '\n' :: y).drop 6) + 1 := by
            rw [List.cons_append, countOccur, if_pos hpre']
        _ = countOccur (x'.drop 6 ++ '\n' :: y) + 1 := by rw [hdr]
        _ = (countOccur (x'.drop 6) + countOccur y) + 1 := by
            rw [countOccur_append_nl (x'.drop 6) y]
        _ = countOccur (c :: x') + countOccur y := by
            rw [hcx]
            omega
    · have hpre' : ¬ startMarker.isPrefixOf (c :: (x' ++ '\n' :: y)) = true := by
        rwa [List.cons_append] at hpre
      have hpx : ¬ startMarker.isPrefixOf (c :: x') = true := by
        intro hq
        apply hpre
        rw [ List.isPrefixOf_iff_prefix] at hq ⊢
        exact hq.trans (List.prefix_append _ _)
      rw [List.cons_append, countOccur, if_neg hpre',
        countOccur_append_nl x' y, countOccur, if_neg hpx]
  termination_by x _ => x.length
  decreasing_by
    all_goals simp [ List.length_drop]
    all_goals omega

/-- The occurrence count of a joined line list is the sum of the
per-line occurrence counts. -/
theorem countOccur_joinNl :
    ∀ L : List (List Char), countOccur (joinNl L) = (L.map countOccur).sum
  | [] => by simp [joinNl, countOccur]
  | [l] => by simp [joinNl]
  | l :: l' :: ls => by
    rw [joinNl, countOccur_append_nl, countOccur_joinNl (l' :: ls)]
    simp

/-- Trimming trailing whitespace off a text that starts with the end
marker leaves the end marker as a leading substring. -/
theorem end_still_after_right_trim (t : List Char) :
    endMarker.isPrefixOf ((endMarker ++ t).reverse.dropWhile isWS).reverse = true := by
  induction t using List.reverseRecOn with
  | nil => decide
  | append_singleton ts c ih =>
    have h1 : endMarker ++ (ts ++ [c]) = (endMarker ++ ts) ++ [c] :=
      (List.append_assoc _ _ _).symm
    rw [h1, List.reverse_append]
    simp only [List.reverse_cons, List.reverse_nil, List.nil_append,
      List.singleton_append]
    rw [List.dropWhile_cons]
    by_cases hc : isWS c = true
    · rw [if_pos hc]
      exact ih
    · rw [if_neg hc, List.reverse_cons, List.reverse_reverse,
        List.append_assoc]
      rw [ List.isPrefixOf_iff_prefix]
      exact List.prefix_append _ _

/-- A line that literally starts with `">>>>>>>"` also starts with it
after trimming, hence is recognized as an end-marker line. -/
theorem isEndLine_of_raw {l : List Char} (h : endMarker.isPrefixOf l = true) :
    isEndLine l = true := by
  obtain ⟨t, ht⟩ := List.isPrefixOf_iff_prefix.mp h
  subst ht
  have hfront : (endMarker ++ t).dropWhile isWS = endMarker ++ t := by
    show List.dropWhile isWS ('>' :: (['>', '>', '>', '>', '>', '>'] ++ t)) =
      '>' :: (['>', '>', '>', '>', '>', '>'] ++ t)
    rw [List.dropWhile_cons, if_neg (by decide)]
  show endMarker.isPrefixOf (jsTrim (endMarker ++ t)) = true
  rw [jsTrim, hfront]
  exact end_still_after_right_trim t

/-- Substring containment characterized: `hasSubstr pat cs` holds exactly
when the pattern occurs contiguously somewhere in the text. -/
theorem hasSubstr_iff {pat cs : List Char} :
    hasSubstr pat cs = true ↔ ∃ x y, cs = x ++ pat ++ y := by
  induction cs with
  | nil =>
    constructor
    · intro h
      have hpat : pat = [] := by
        simpa [hasSubstr, List.isEmpty_iff] using h
      exact ⟨[], [], by simp [hpat]⟩
    · rintro ⟨x, y, hxy⟩
      have hx : x = [] ∧ pat = [] ∧ y = [] := by simpa using hxy.symm
      simp [hasSubstr, hx.2.1]
  | cons c rest ih =>
    rw [hasSubstr]
    simp only [Bool.or_eq_true, ih]
    constructor
    · rintro (hpre | ⟨x, y, rfl⟩)
      · obtain ⟨t, htt⟩ := List.isPrefixOf_iff_prefix.mp hpre
        exact ⟨[], t, by simp [← htt]⟩
      · exact ⟨c :: x, y, by simp⟩
    · rintro ⟨x, y, hxy⟩
      rcases x with _ | ⟨x0, x'⟩
      · left
        rw [List.nil_append] at hxy
        exact List.isPrefixOf_iff_prefix.mpr ⟨y, hxy.symm⟩
      · right
        rw [List.cons_append, List.cons_append] at hxy
        exact ⟨x', y, (List.cons.injEq _ _ _ _ ▸ hxy).2⟩

/-- Full characterization of the structural boundary scan when an end
marker is found: the end index is the FIRST end-marker line, and the
middle index, when present, is the LAST separator line before that end
marker (when absent, no separator precedes the end marker). -/
theorem fbStruct_spec :
    ∀ {L : List (List Char)} {mo : Option Nat} {e : Nat},
    fbStruct L = (mo, some e) →
    e < L.length ∧ isEndLine (L.getD e []) = true ∧
      (∀ j, j < e → ¬ isEndLine (L.getD j []) = true) ∧
      (∀ m, mo = some m → m < e ∧ isSepLine (L.getD m []) = true ∧
        ∀ j, m < j → j < e → ¬ isSepLine (L.getD j []) = true) ∧
      (mo = none → ∀ j, j < e → ¬ isSepLine (L.getD j []) = true) := by
  intro L
  induction L with
  | nil =>
    intro mo e h
    simp [fbStruct] at h
  | cons l rest ih =>
    intro mo e h
    rcases hfb : fbStruct rest with ⟨mo', eo'⟩
    by_cases hsep : isSepLine l = true
    · rw [fbStruct_cons_sep hsep, hfb] at h
      rcases eo' with _ | e'
      · exact absurd (congrArg Prod.snd h) (by simp)
      · injection h with h1 h2
        have h2' : e = e' + 1 := by
          simp at h2
          omega
        subst h2'
        subst h1
        obtain ⟨hlt, hend, hnoend, hsome, hnone⟩ := ih hfb
        refine ⟨by simp; omega, ?_, ?_, ?_, ?_⟩
        · rw [List.getD_cons_succ]
          exact hend
        · intro j hj
          rcases j with _ | j'
          · rw [List.getD_cons_zero]
            exact not_isEndLine_of_isSepLine hsep
          · rw [List.getD_cons_succ]
            exact hnoend j' (by omega)
        · intro m hm
          rcases mo' with _ | m'
          · have hm0 : (0 : Nat) = m := by simpa using hm
            refine ⟨by omega, ?_, ?_⟩
            · rw [← hm0, List.getD_cons_zero]
              exact hsep
            · intro j hj1 hj2
              rcases j with _ | j'
              · omega
              · rw [List.getD_cons_succ]
                exact hnone rfl j' (by omega)
          · have hm1 : m' + 1 = m := by simpa using hm
            obtain ⟨hmlt, hmsep, hafter⟩ := hsome m' rfl
            refine ⟨by omega, ?_, ?_⟩
            · rw [← hm1, List.getD_cons_succ]
              exact hmsep
            · intro j hj1 hj2
              rcases j with _ | j'
              · omega
              · rw [List.getD_cons_succ]
                exact hafter j' (by omega) (by omega)
        · intro hcon
          exact absurd hcon (by simp)
    · by_cases hend : isEndLine l = true
      · rw [fbStruct_cons_end hend] at h
        injection h with h1 h2
        injection h2 with h2
        subst h2
        subst h1
        refine ⟨by simp, ?_, ?_, ?_, ?_⟩
        · rw [List.getD_cons_zero]
          exact hend
        · intro j hj
          exact absurd hj (by omega)
        · intro m hm
          exact absurd hm (by simp)
        · intro _ j hj
          exact absurd hj (by omega)
      · rw [fbStruct_cons_clean hsep hend, hfb] at h
        injection h with h1 h2
        rcases eo' with _ | e'
        · exact absurd h2 (by simp)
        · have h2' : e' + 1 = e := by simpa using h2
          subst h2'
          subst h1
          obtain ⟨hlt, hendr, hnoend, hsome, hnone⟩ := ih hfb
          refine ⟨by simp; omega, ?_, ?_, ?_, ?_⟩
          · rw [List.getD_cons_succ]
            exact hendr
          · intro j hj
            rcases j with _ | j'
            · rw [List.getD_cons_zero]
              exact hend
            · rw [List.getD_cons_succ]
              exact hnoend j' (by omega)
          · intro m hm
            rcases mo' with _ | m'
            · exact absurd hm (by simp)
            · have hm1 : m' + 1 = m := by simpa using hm
              obtain ⟨hmlt, hmsep, hafter⟩ := hsome m' rfl
              refine ⟨by omega, ?_, ?_⟩
              · rw [← hm1, List.getD_cons_succ]
                exact hmsep
              · intro j hj1 hj2
                rcases j with _ | j'
                · omega
                · rw [List.getD_cons_succ]
                  exact hafter j' (by omega) (by omega)
          · intro hmo j hj
            have hmo' : mo' = none := by
              rcases mo' with _ | m'
              · rfl
              · exact absurd hmo (by simp)
            rcases j with _ | j'
            · rw [List.getD_cons_zero]
              exact hsep
            · rw [List.getD_cons_succ]
              exact hnone hmo' j' (by omega)

/-- Reading a dropped list with default is reading the original at the
shifted index. -/
theorem getD_drop (lines : List (List Char)) (n k : Nat) :
    (lines.drop n).getD k [] = lines.getD (n + k) [] := by
  rw [List.getD_eq_getElem?_getD, List.getD_eq_getElem?_getD, List.getElem?_drop]

/-- Characterization of `findConflictBoundaries` when both indices are
found: `endIndex` is the first line after `startIndex` whose trimmed
value starts with `">>>>>>>"`, and `middleIndex` is the last line before
`endIndex` whose trimmed value is `"======="`. -/
theorem findConflictBoundaries_spec (lines : List (List Char)) (s m e : Nat)
    (h : findConflictBoundaries lines s = (some m, some e)) :
    s < e ∧ e < lines.length ∧ isEndLine (lines.getD e []) = true ∧
      (∀ j, s < j → j < e → ¬ isEndLine (lines.getD j []) = true) ∧
      s < m ∧ m < e ∧ isSepLine (lines.getD m []) = true ∧
      (∀ j, m < j → j < e → ¬ isSepLine (lines.getD j []) = true) := by
  rw [findConflictBoundaries_eq] at h
  rcases hfb : fbStruct (lines.drop (s + 1)) with ⟨mo', eo'⟩
  rw [hfb] at h
  injection h with h1 h2
  rcases eo' with _ | e'
  · exact absurd h2 (by simp)
  · have he : e = s + 1 + e' := by
      simp at h2
      omega
    rcases mo' with _ | m'
    · exact absurd h1 (by simp)
    · have hm : m = s + 1 + m' := by
        simp at h1
        omega
      obtain ⟨hlt, hend, hnoend, hsome, _⟩ := fbStruct_spec hfb
      obtain ⟨hmlt, hmsep, hafter⟩ := hsome m' rfl
      have hdlen : (lines.drop (s + 1)).length = lines.length - (s + 1) := by
        simp
      subst he
      subst hm
      refine ⟨by omega, by omega, ?_, ?_, by omega, by omega, ?_, ?_⟩
      · rw [← getD_drop lines (s + 1) e']
        exact hend
      · intro j hj1 hj2
        have hj : lines.getD j [] = (lines.drop (s + 1)).getD (j - (s + 1)) [] := by
          rw [getD_drop]
          congr 1
          omega
        rw [hj]
        exact hnoend (j - (s + 1)) (by omega)
      · rw [← getD_drop lines (s + 1) m']
        exact hmsep
      · intro j hj1 hj2
        have hj : lines.getD j [] = (lines.drop (s + 1)).getD (j - (s + 1)) [] := by
          rw [getD_drop]
          congr 1
          omega
        rw [hj]
        exact hafter (j - (s + 1)) (by omega) (by omega)

/-- A start-marker line whose boundary scan fails to find a separator or
an end marker is passed through unchanged, and scanning resumes at the
next line. -/
theorem processConflictsAux_malformed (lines : List (List Char))
    (choice : String) (fuel i : Nat) (h : i < lines.length)
    (hstart : isStartLine (lines.getD i []) = true)
    (hmal : (findConflictBoundaries lines i).1 = none ∨
      (findConflictBoundaries lines i).2 = none) :
    processConflictsAux lines choice (fuel + 1) i =
      lines.getD i [] :: processConflictsAux lines choice fuel (i + 1) := by
  have hg : lines.getD i [] = lines[i] := by
    rw [List.getD_eq_getElem?_getD, List.getElem?_eq_getElem h]
    rfl
  rw [hg] at hstart
  have hstart' : startMarker.isPrefixOf lines[i] = true := by
    simpa [isStartLine] using hstart
  rcases hfbp : findConflictBoundaries lines i with ⟨mo, eo⟩
  rw [hfbp] at hmal
  simp only [processConflictsAux, dif_pos h, hstart', if_pos, hfbp]
  rcases mo with _ | m <;> rcases eo with _ | e
  · rw [hg]
  · rw [hg]
  · rw [hg]
  · simp at hmal

/-- On content with no start-marker line the resolver returns the
content unchanged. -/
theorem processConflicts_id_of_no_start (content choice : String)
    (h : ∀ l ∈ splitNl content.data, ¬ isStartLine l = true) :
    processConflicts content choice = content := by
  rw [processConflicts_eq, procStruct_id h, joinNl_splitNl]

/-- Lines without start markers prepended to any suffix pass through the
resolver unchanged. -/
theorem procStruct_append_plain {choice : String} {pre L : List (List Char)}
    (hpre : ∀ l ∈ pre, ¬ isStartLine l = true) :
    procStruct choice (pre ++ L) = pre ++ procStruct choice L := by
  induction pre with
  | nil => simp
  | cons x pre' ih =>
    rw [List.cons_append, procStruct, if_neg (hpre x (List.mem_cons_self _ _)),
      ih (fun l hl => hpre l (List.mem_cons_of_mem _ hl)), List.cons_append]

/-- A line starting with the start marker contributes at least one
occurrence of the pattern. -/
theorem countOccur_ne_zero_of_start {l : List Char}
    (h : isStartLine l = true) : countOccur l ≠ 0 := by
  have h' : startMarker.isPrefixOf l = true := by simpa [isStartLine] using h
  rcases l with _ | ⟨c, rest⟩
  · simp [startMarker, List.isPrefixOf] at h'
  · rw [countOccur, if_pos h']
    omega

/-- The total occurrence count of the text is the sum of the per-line
occurrence counts of its split. -/
theorem countOccur_eq_sum_lines (content : String) :
    getConflictCount content = ((splitNl content.data).map countOccur).sum := by
  rw [getConflictCount_eq]
  conv_lhs => rw [← joinNl_splitNl content.data]
  exact countOccur_joinNl _

/-- The number of start-marker lines is the sum of the per-line
start-marker indicators. -/
theorem countP_isStartLine_eq_sum (L : List (List Char)) :
    L.countP (fun l => isStartLine l) =
      (L.map (fun l => if isStartLine l = true then (1 : Nat) else 0)).sum := by
  induction L with
  | nil => simp
  | cons l ls ih =>
    rw [List.countP_cons, List.map_cons, List.sum_cons, ih]
    by_cases hs : isStartLine l = true <;> simp [hs] <;> omega

/-- Summands dominating a second family pointwise and summing to the
same total agree pointwise. -/
theorem sum_eq_forces_pointwise {f g : List Char → Nat} :
    ∀ L : List (List Char), (∀ x ∈ L, g x ≤ f x) →
    (L.map f).sum = (L.map g).sum → ∀ x ∈ L, f x = g x := by
  intro L
  induction L with
  | nil => simp
  | cons l ls ih =>
    intro hle hsum x hx
    have hle_l : g l ≤ f l := hle l (List.mem_cons_self _ _)
    have hle_rest : ∀ x ∈ ls, g x ≤ f x :=
      fun x hx => hle x (List.mem_cons_of_mem _ hx)
    have hrest_le : (ls.map g).sum ≤ (ls.map f).sum :=
      List.sum_le_sum hle_rest
    rw [List.map_cons, List.sum_cons, List.map_cons, List.sum_cons] at hsum
    have hfl : f l = g l := by omega
    have hsums : (ls.map f).sum = (ls.map g).sum := by omega
    rcases List.mem_cons.mp hx with rfl | hx
    · exact hfl
    · exact ih hle_rest hsums x hx

/-- Every line's occurrence count dominates its start-marker
indicator. -/
theorem indicator_le_countOccur (x : List Char) :
    (if isStartLine x = true then (1 : Nat) else 0) ≤ countOccur x := by
  by_cases hs : isStartLine x = true
  · rw [if_pos hs]
    have := countOccur_ne_zero_of_start hs
    omega
  · rw [if_neg hs]
    omega

/-! ## Claims -/

/-- C1 (amended). Marker elimination: for a policy in
{current, incoming, both} and input whose lines form a clean sequence —
each line is either marker-free (does not start with `"<<<<<<<"`, does
not trim to `"======="`, does not trim to something starting with
`">>>>>>>"`) or part of a well-shaped conflict region whose two sides
consist of such marker-free lines — the output of `resolve` contains no
line starting with `"<<<<<<<"`, no line whose trimmed value is
`"======="`, and no line starting with `">>>>>>>"`.  (The claim as
frozen, which only requires every start-marker line to be followed by a
separator and an end marker, is refuted by `C1_counterexample`.) -/
theorem C1_marker_elimination (content p : String)
    (hp : p = "current" ∨ p = "incoming" ∨ p = "both")
    (hclean : CleanLinesP
      (fun l => ¬ isStartLine l = true ∧ ¬ isSepLine l = true ∧ ¬ isEndLine l = true)
      (splitNl content.data)) :
    ∀ l ∈ splitNl (processConflicts content p).data,
      ¬ isStartLine l = true ∧ ¬ isSepLine l = true ∧
        ¬ endMarker.isPrefixOf l = true := by
  intro l hl
  rw [processConflicts_eq] at hl
  have hdata : (String.mk (joinNl (procStruct p (splitNl content.data)))).data
      = joinNl (procStruct p (splitNl content.data)) := rfl
  rw [hdata] at hl
  have hinner : ∀ x ∈ procStruct p (splitNl content.data),
      ¬ isStartLine x = true ∧ ¬ isSepLine x = true ∧ ¬ isEndLine x = true :=
    procStruct_clean (fun x hx => ⟨hx.1, hx.2.1, hx.2.2⟩) p hclean
  by_cases hne : procStruct p (splitNl content.data) = []
  · rw [hne] at hl
    have hl' : l = [] := by simpa [joinNl, splitNl] using hl
    subst hl'
    exact ⟨by decide, by decide, by decide⟩
  · have hnl : ∀ x ∈ procStruct p (splitNl content.data), '\n' ∉ x := by
      intro x hx
      exact no_newline_of_mem_splitNl (mem_procStruct p _ x hx)
    rw [splitNl_joinNl hnl hne] at hl
    obtain ⟨h1, h2, h3⟩ := hinner l hl
    exact ⟨h1, h2, fun hraw => h3 (isEndLine_of_raw hraw)⟩

/-- C1, counterexample to the claim as frozen: in
`"<<<<<<< a\n=======\n=======\n>>>>>>> b"` the single start-marker line
is followed by a separator line and then an end-marker line, yet
resolving with policy `current` yields the single line `"======="` — a
line whose trimmed value equals the separator marker.  (The scan takes
the LAST separator before the end marker, so the first separator line is
emitted as content.) -/
theorem C1_counterexample :
    (∀ i ∈ List.range (splitNl "<<<<<<< a\n=======\n=======\n>>>>>>> b".data).length,
      isStartLine ((splitNl "<<<<<<< a\n=======\n=======\n>>>>>>> b".data).getD i []) = true →
      ∃ ms ∈ List.range (splitNl "<<<<<<< a\n=======\n=======\n>>>>>>> b".data).length,
        i < ms ∧
        isSepLine ((splitNl "<<<<<<< a\n=======\n=======\n>>>>>>> b".data).getD ms []) = true ∧
        ∃ me ∈ List.range (splitNl "<<<<<<< a\n=======\n=======\n>>>>>>> b".data).length,
          ms < me ∧
          isEndLine ((splitNl "<<<<<<< a\n=======\n=======\n>>>>>>> b".data).getD me []) = true) ∧
    processConflicts "<<<<<<< a\n=======\n=======\n>>>>>>> b" "current" = "=======" ∧
    isSepLine ((splitNl (processConflicts "<<<<<<< a\n=======\n=======\n>>>>>>> b" "current").data).getD 0 []) = true := by
  decide

/-- C1, witness: the amended theorem applied to a concrete clean
two-sided conflict under policy `both`, evaluated at the first kept
line of the output. -/
theorem C1_marker_elimination_witness :
    ¬ isStartLine "A".data = true ∧ ¬ isSepLine "A".data = true ∧
      ¬ endMarker.isPrefixOf "A".data = true :=
  C1_marker_elimination "x\n<<<<<<< HEAD\nA\n=======\nB\n>>>>>>> main\ny" "both"
    (Or.inr (Or.inr rfl))
    (CleanLinesP.plain (by decide)
      (@CleanLinesP.region
        (fun l => ¬ isStartLine l = true ∧ ¬ isSepLine l = true ∧ ¬ isEndLine l = true)
        "<<<<<<< HEAD".data "=======".data ">>>>>>> main".data
        ["A".data] ["B".data] ["y".data]
        (by decide) (by decide) (by decide) (by decide) (by decide)
        (CleanLinesP.plain (by decide) CleanLinesP.nil)))
    "A".data (by decide)

/-- C2 (amended). Boundary location: when `findConflictBoundaries`
returns both indices, the end index is the FIRST line after the start
whose trimmed value starts with `">>>>>>>"`, and the middle index is the
LAST line strictly between start and end whose trimmed value equals
`"======="` (not the first, as the claim as frozen states — refuted by
`C2_counterexample`). -/
theorem C2_boundary_location (lines : List (List Char)) (s m e : Nat)
    (h : findConflictBoundaries lines s = (some m, some e)) :
    s < e ∧ e < lines.length ∧ isEndLine (lines.getD e []) = true ∧
      (∀ j, s < j → j < e → ¬ isEndLine (lines.getD j []) = true) ∧
      s < m ∧ m < e ∧ isSepLine (lines.getD m []) = true ∧
      (∀ j, m < j → j < e → ¬ isSepLine (lines.getD j []) = true) :=
  findConflictBoundaries_spec lines s m e h

/-- C2, counterexample to the claim as frozen: with two separator lines
before the end marker, the scan chooses index 2, although the first
subsequent line trimming to `"======="` is index 1. -/
theorem C2_counterexample :
    findConflictBoundaries [startMarker, sepMarker, sepMarker, endMarker] 0
      = (some 2, some 3) ∧
    isSepLine (([startMarker, sepMarker, sepMarker, endMarker] : List (List Char)).getD 1 []) = true ∧
    (1 : Nat) < 2 := by decide

/-- C2, witness: the amended characterization applied to the concrete
line list start/separator/end. -/
theorem C2_boundary_location_witness :
    (0 : Nat) < 2 ∧
      2 < ([startMarker, sepMarker, endMarker] : List (List Char)).length ∧
      isEndLine (([startMarker, sepMarker, endMarker] : List (List Char)).getD 2 []) = true ∧
      (∀ j, 0 < j → j < 2 →
        ¬ isEndLine (([startMarker, sepMarker, endMarker] : List (List Char)).getD j []) = true) ∧
      (0 : Nat) < 1 ∧ (1 : Nat) < 2 ∧
      isSepLine (([startMarker, sepMarker, endMarker] : List (List Char)).getD 1 []) = true ∧
      (∀ j, 1 < j → j < 2 →
        ¬ isSepLine (([startMarker, sepMarker, endMarker] : List (List Char)).getD j []) = true) :=
  C2_boundary_location [startMarker, sepMarker, endMarker] 0 1 2 (by decide)

/-- C3 (amended). Idempotence holds when the first resolution leaves no
start-marker line in its output (in particular on the spec's "clean
input"); the unrestricted claim as frozen is refuted by
`C3_counterexample`, where a start-marker line surviving inside a kept
side is re-resolved by the second pass. -/
theorem C3_idempotent_on_clean_output (content p : String)
    (hp : p = "current" ∨ p = "incoming" ∨ p = "both")
    (h : ∀ l ∈ splitNl (processConflicts content p).data, ¬ isStartLine l = true) :
    processConflicts (processConflicts content p) p = processConflicts content p :=
  processConflicts_id_of_no_start _ p h

/-- C3, counterexample to the claim as frozen: resolving this text once
with policy `current` emits a start-marker line as kept content; a
second resolution changes the text again. -/
theorem C3_counterexample :
    processConflicts
        (processConflicts "<<<<<<< a\n<<<<<<< b\n=======\n>>>>>>> c\n=======\n>>>>>>> d" "current")
        "current"
      ≠ processConflicts "<<<<<<< a\n<<<<<<< b\n=======\n>>>>>>> c\n=======\n>>>>>>> d" "current" := by
  decide

/-- C3, witness: the amended idempotence applied to a marker-free text
under policy `current`. -/
theorem C3_idempotent_on_clean_output_witness :
    processConflicts (processConflicts "hello\nworld" "current") "current"
      = processConflicts "hello\nworld" "current" :=
  C3_idempotent_on_clean_output "hello\nworld" "current" (Or.inl rfl) (by decide)

/-- C4 (amended). Resolved count reaches zero for policies in
{current, incoming, both} when the input lines form a clean sequence in
which every line outside the markers contains NO occurrence of
`"<<<<<<<"` at all (not merely none at the start of a line: the counter
is a substring count, see `C4_counterexample`) and no separator/end
marker shapes. -/
theorem C4_resolved_count_zero (content p : String)
    (hp : p = "current" ∨ p = "incoming" ∨ p = "both")
    (hclean : CleanLinesP
      (fun l => countOccurAux l.length l = 0 ∧ ¬ isSepLine l = true ∧ ¬ isEndLine l = true)
      (splitNl content.data)) :
    getConflictCount (processConflicts content p) = 0 := by
  have hP : ∀ l, (countOccurAux l.length l = 0 ∧ ¬ isSepLine l = true ∧ ¬ isEndLine l = true) →
      ¬ isStartLine l = true ∧ ¬ isSepLine l = true ∧ ¬ isEndLine l = true := by
    intro l hPl
    refine ⟨?_, hPl.2.1, hPl.2.2⟩
    intro hs
    have hz : countOccur l = 0 := by
      rw [← countOccurAux_eq_countOccur l.length l (le_refl _)]
      exact hPl.1
    exact countOccur_ne_zero_of_start hs hz
  have hout : ∀ l ∈ procStruct p (splitNl content.data),
      countOccurAux l.length l = 0 ∧ ¬ isSepLine l = true ∧ ¬ isEndLine l = true :=
    procStruct_clean hP p hclean
  rw [processConflicts_eq, getConflictCount_eq]
  have hdata : (String.mk (joinNl (procStruct p (splitNl content.data)))).data
      = joinNl (procStruct p (splitNl content.data)) := rfl
  rw [hdata, countOccur_joinNl]
  apply List.sum_eq_zero
  intro x hx
  rcases List.mem_map.mp hx with ⟨l, hl, rfl⟩
  rw [← countOccurAux_eq_countOccur l.length l (le_refl _)]
  exact (hout l hl).1

/-- C4, counterexample to the claim as frozen: `"foo<<<<<<<bar"` has no
start-marker LINE at all (so the claim's well-formedness hypothesis
holds vacuously and `resolve` is the identity), yet the counter — a
substring occurrence count — still reports 1 after resolution. -/
theorem C4_counterexample :
    (∀ i ∈ List.range (splitNl "foo<<<<<<<bar".data).length,
      ¬ isStartLine ((splitNl "foo<<<<<<<bar".data).getD i []) = true) ∧
    getConflictCount (processConflicts "foo<<<<<<<bar" "current") = 1 := by
  decide

/-- C4, witness: the amended theorem applied to a concrete clean
conflict under policy `current`. -/
theorem C4_resolved_count_zero_witness :
    getConflictCount
      (processConflicts "keep\n<<<<<<< a\nA\n=======\nB\n>>>>>>> b\ntail" "current") = 0 :=
  C4_resolved_count_zero "keep\n<<<<<<< a\nA\n=======\nB\n>>>>>>> b\ntail" "current"
    (Or.inl rfl)
    (CleanLinesP.plain (by decide)
      (@CleanLinesP.region
        (fun l => countOccurAux l.length l = 0 ∧ ¬ isSepLine l = true ∧ ¬ isEndLine l = true)
        "<<<<<<< a".data "=======".data ">>>>>>> b".data
        ["A".data] ["B".data] ["tail".data]
        (by decide) (by decide) (by decide) (by decide) (by decide)
        (CleanLinesP.plain (by decide) CleanLinesP.nil)))

/-- C5 (amended). `countConflicts` counts the non-overlapping
occurrences of the substring `"<<<<<<<"` anywhere in the text, not the
lines starting with it (refuted as frozen by `C5_counterexample`); the
two agree EXACTLY WHEN every line's own occurrence count is 1 for lines
starting with the marker and 0 otherwise — both directions of the
equivalence. -/
theorem C5_conflict_count (content : String) :
    getConflictCount content
        = (splitNl content.data).countP (fun l => isStartLine l) ↔
      ∀ l ∈ splitNl content.data,
        countOccurAux l.length l = if isStartLine l = true then 1 else 0 := by
  constructor
  · intro heq
    rw [countOccur_eq_sum_lines, countP_isStartLine_eq_sum] at heq
    intro l hl
    rw [countOccurAux_eq_countOccur l.length l (le_refl _)]
    exact sum_eq_forces_pointwise (splitNl content.data)
      (fun x _ => indicator_le_countOccur x) heq l hl
  · intro h
    rw [countOccur_eq_sum_lines, countP_isStartLine_eq_sum]
    refine congrArg List.sum (List.map_congr_left fun l hl => ?_)
    rw [← countOccurAux_eq_countOccur l.length l (le_refl _)]
    exact h l hl

/-- C5, counterexample to the claim as frozen: `"a<<<<<<<"` contains the
marker as an interior substring; the counter reports 1, but no line
starts with the marker. -/
theorem C5_counterexample :
    getConflictCount "a<<<<<<<" = 1 ∧
    (splitNl "a<<<<<<<".data).countP (fun l => isStartLine l) = 0 := by
  decide

/-- C5, witness: the reverse direction of the amended equivalence
applied to a text whose only occurrence of the marker is at the start of
one line. -/
theorem C5_conflict_count_witness :
    getConflictCount "x\n<<<<<<< HEAD\ny"
      = (splitNl "x\n<<<<<<< HEAD\ny".data).countP (fun l => isStartLine l) :=
  (C5_conflict_count "x\n<<<<<<< HEAD\ny").mpr (by decide)

/-- C6 (amended). `hasConflicts` is true exactly when the text contains
each of the three marker strings as a substring somewhere, the three
checks being independent whole-text substring containments — not
"a line equal to the separator", as the claim as frozen states (refuted
by `C6_counterexample`). -/
theorem C6_hasConflicts_characterization (content : String) :
    hasConflicts content = true ↔
      (∃ x y, content.data = x ++ startMarker ++ y) ∧
      (∃ x y, content.data = x ++ sepMarker ++ y) ∧
      (∃ x y, content.data = x ++ endMarker ++ y) := by
  rw [hasConflicts]
  simp only [Bool.and_eq_true, hasSubstr_iff]
  constructor
  · rintro ⟨⟨h1, h2⟩, h3⟩
    exact ⟨h1, h2, h3⟩
  · rintro ⟨h1, h2, h3⟩
    exact ⟨⟨h1, h2⟩, h3⟩

/-- C6, counterexample to the claim as frozen: all three markers occur
as interior substrings of a single line, so `hasConflicts` is true, yet
no line equals the separator marker. -/
theorem C6_counterexample :
    hasConflicts "a<<<<<<<b=======c>>>>>>>d" = true ∧
    (∀ l ∈ splitNl "a<<<<<<<b=======c>>>>>>>d".data, ¬ l = sepMarker) := by
  decide

/-- C7. Malformed-region pass-through: a start-marker line whose
boundary scan is missing a separator or an end marker is emitted
unchanged, with scanning resuming at the next line; concretely,
`resolve("<<<<<<< x\nA\n=======", p)` is the identity for every policy
string `p`. -/
theorem C7_malformed_passthrough :
    (∀ (lines : List (List Char)) (choice : String) (fuel i : Nat),
      i < lines.length →
      isStartLine (lines.getD i []) = true →
      ((findConflictBoundaries lines i).1 = none ∨
        (findConflictBoundaries lines i).2 = none) →
      processConflictsAux lines choice (fuel + 1) i =
        lines.getD i [] :: processConflictsAux lines choice fuel (i + 1)) ∧
    (∀ choice : String,
      processConflicts "<<<<<<< x\nA\n=======" choice = "<<<<<<< x\nA\n=======") := by
  constructor
  · intro lines choice fuel i h hs hm
    exact processConflictsAux_malformed lines choice fuel i h hs hm
  · intro choice
    rfl

/-- C7, witness: the pass-through equation applied to a lone start
marker, and the concrete malformed scenario under policy `current`. -/
theorem C7_malformed_passthrough_witness :
    processConflictsAux [startMarker] "current" (0 + 1) 0 =
      ([startMarker] : List (List Char)).getD 0 []
        :: processConflictsAux [startMarker] "current" 0 1 :=
  C7_malformed_passthrough.1 [startMarker] "current" 0 0 (by decide) (by decide)
    (by decide)

/-- C8. Totality and no-conflict identity: the resolver is a total Lean
function by construction, and on any text with no line starting with
`"<<<<<<<"` — including the empty text — it returns the input unchanged;
the two boundary examples evaluate as the spec states. -/
theorem C8_no_conflict_identity :
    (∀ content choice : String,
      (∀ l ∈ splitNl content.data, ¬ isStartLine l = true) →
      processConflicts content choice = content) ∧
    processConflicts "" "current" = "" ∧
    processConflicts "hello\nworld" "current" = "hello\nworld" :=
  ⟨fun content choice h => processConflicts_id_of_no_start content choice h,
    by decide, by decide⟩

/-- C8, witness: the identity applied to a marker-free text under an
arbitrary policy string. -/
theorem C8_no_conflict_identity_witness :
    processConflicts "plain\ntext" "weird" = "plain\ntext" :=
  C8_no_conflict_identity.1 "plain\ntext" "weird" (by decide)

/-- C9. Single-conflict scenario: the three policies produce exactly the
outputs the spec lists. -/
theorem C9_single_conflict_scenario :
    processConflicts "line1\n<<<<<<< feature\nA\n=======\nB\n>>>>>>> main\nline2" "current"
        = "line1\nA\nline2" ∧
    processConflicts "line1\n<<<<<<< feature\nA\n=======\nB\n>>>>>>> main\nline2" "incoming"
        = "line1\nB\nline2" ∧
    processConflicts "line1\n<<<<<<< feature\nA\n=======\nB\n>>>>>>> main\nline2" "both"
        = "line1\nA\nB\nline2" := by
  refine ⟨by decide, by decide, by decide⟩

/-- C10. Unknown policy deletes the region: for a policy string other
than `"current"`, `"incoming"` and `"both"`, a well-shaped conflict
region — the three marker lines and both sides — is removed entirely,
while lines outside regions pass through unchanged and scanning
continues after the region. -/
theorem C10_unknown_policy_deletes_region (choice : String)
    (pre a b post : List (List Char)) (s m e : List Char)
    (hc : ¬ choice = "current" ∧ ¬ choice = "incoming" ∧ ¬ choice = "both")
    (hpre : ∀ l ∈ pre, ¬ isStartLine l = true)
    (hs : isStartLine s = true)
    (ha : ∀ l ∈ a, ¬ isSepLine l = true ∧ ¬ isEndLine l = true)
    (hm : isSepLine m = true)
    (hb : ∀ l ∈ b, ¬ isSepLine l = true ∧ ¬ isEndLine l = true)
    (he : isEndLine e = true) :
    processConflictsAux (pre ++ (s :: (a ++ (m :: (b ++ e :: post))))) choice
        (pre ++ (s :: (a ++ (m :: (b ++ e :: post))))).length 0 =
      pre ++ processConflictsAux post choice post.length 0 := by
  rw [processConflictsAux_eq_procStruct _ choice _ 0 (by omega),
    processConflictsAux_eq_procStruct _ choice _ 0 (by omega)]
  simp only [List.drop_zero]
  rw [procStruct_append_plain hpre, procStruct_region choice hs ha hm hb he,
    if_neg hc.1, if_neg hc.2.1, if_neg hc.2.2]
  simp

/-- C10, witness: the deletion behaviour at a concrete one-region text
under the unknown policy `"theirs"`. -/
theorem C10_unknown_policy_deletes_region_witness :
    processConflictsAux
        ([['p']] ++ ("<<<<<<< x".data :: (([['A']] : List (List Char)) ++
          ("=======".data :: (([['B']] : List (List Char)) ++ ">>>>>>> y".data :: [['q']])))))
        "theirs"
        ([['p']] ++ ("<<<<<<< x".data :: (([['A']] : List (List Char)) ++
          ("=======".data :: (([['B']] : List (List Char)) ++ ">>>>>>> y".data :: [['q']]))))).length
        0 =
      [['p']] ++ processConflictsAux [['q']] "theirs" ([['q']] : List (List Char)).length 0 :=
  C10_unknown_policy_deletes_region "theirs" [['p']] [['A']] [['B']] [['q']]
    "<<<<<<< x".data "=======".data ">>>>>>> y".data
    (by decide) (by decide) (by decide) (by decide) (by decide) (by decide)
    (by decide)
